import Mathlib

/-!
Verification of the LinguistDaily reader core: the sentence segmentation and
timeline-mapping pipeline of `ArticleView.tsx`, the playback loop clamp, the
fallback orchestrator of `aiService.ts`, and the review scheduling and preload
recovery logic of the application root. Text is modelled as `List Char`,
floating-point times as `ℚ`, fallible calls as `Except`.
-/

namespace LinguistDaily

/-! ## Character classes used by the ArticleView regexes -/

/-- Sentence terminators, the class `[.!?。！？]` of `ArticleView.tsx`. -/
def isTerminator (c : Char) : Bool :=
  c = '.' || c = '!' || c = '?' || c = '。' || c = '！' || c = '？'

/-- Mid-sentence pause marks, the class `[,;：、，；]` of `getWeight`. -/
def isPauseMark (c : Char) : Bool :=
  c = ',' || c = ';' || c = '：' || c = '、' || c = '，' || c = '；'

/-- Quote marks, the class of `getWeight` and the optional closing quote of the
segmentation regex (ASCII double and single quote in this source). -/
def isQuoteMark (c : Char) : Bool :=
  c = '"' || c = Char.ofNat 39

/-- Newline characters, the class `\n` of `getWeight`. -/
def isNewlineChar (c : Char) : Bool :=
  c = Char.ofNat 10

/-! ## Duration Weighter (`getWeight` in `ArticleView.tsx`) -/

/-- The heuristic speech weight of a sentence: character count plus weighted
punctuation counts, from `getWeight` in `ArticleView.tsx`. -/
def getWeight (text : List Char) : Nat :=
  text.length
    + 20 * text.countP isTerminator
    + 8 * text.countP isPauseMark
    + 2 * text.countP isQuoteMark
    + 25 * text.countP isNewlineChar

theorem getWeight_pos_of_ne_nil (text : List Char) (h : text ≠ []) :
    0 < getWeight text := by
  have hlen : 0 < text.length := List.length_pos.mpr h
  unfold getWeight
  omega

/-- C9: the heuristic weight is exactly
length + 20·terminators + 8·pause marks + 2·quotes + 25·newlines, and it is
strictly positive for every text containing a non-whitespace character. -/
theorem getWeight_spec (text : List Char)
    (h : ∃ c ∈ text, c.isWhitespace = false) :
    getWeight text
        = text.length
          + 20 * text.countP isTerminator
          + 8 * text.countP isPauseMark
          + 2 * text.countP isQuoteMark
          + 25 * text.countP isNewlineChar
      ∧ 0 < getWeight text := by
  refine ⟨rfl, ?_⟩
  obtain ⟨c, hc, -⟩ := h
  exact getWeight_pos_of_ne_nil text (List.ne_nil_of_mem hc)

/-- Witness for C9 at the concrete sentence "Hi.". -/
theorem getWeight_spec_witness :
    (∃ c ∈ ("Hi.".toList), c.isWhitespace = false)
      ∧ 0 < getWeight ("Hi.".toList) := by
  refine ⟨⟨'H', by decide, by decide⟩, ?_⟩
  exact (getWeight_spec ("Hi.".toList) ⟨'H', by decide, by decide⟩).2

/-! ## Segmenter: the punctuation-driven regex fallback of `ArticleView.tsx`

The fallback path is
`content.match(/[^.!?。！？]+[.!?。！？]+["']?|[^.!?。！？]+$/g) || [content]`
followed by an index-accumulating map.  We model the global regex scan
directly: a match always starts at a non-terminator character, consumes the
maximal non-terminator run, then (first alternative) the maximal terminator
run plus at most one quote character, or (second alternative) runs to the end
of the string.  Characters where no match can start are skipped. -/

/-- One step of the left-to-right regex scan: either a skipped character
(`Sum.inl`) or one match (`Sum.inr`). -/
abbrev ScanItem := Sum Char (List Char)

/-- Negation of the terminator class, `[^.!?。！？]`. -/
def notTerminator (c : Char) : Bool := ! isTerminator c

/-- Fuel-indexed scanner for the fallback regex; `fuel ≥ length` makes it
total.  Each step consumes at least one character. -/
def scanFuel : Nat → List Char → List ScanItem
  | 0, _ => []
  | _ + 1, [] => []
  | fuel + 1, c :: cs =>
    if isTerminator c then Sum.inl c :: scanFuel fuel cs
    else
      match (c :: cs).dropWhile notTerminator with
      | [] => [Sum.inr ((c :: cs).takeWhile notTerminator)]
      | r :: rs =>
        match (r :: rs).dropWhile isTerminator with
        | [] =>
          [Sum.inr ((c :: cs).takeWhile notTerminator
            ++ (r :: rs).takeWhile isTerminator)]
        | q :: rest3 =>
          if isQuoteMark q then
            Sum.inr ((c :: cs).takeWhile notTerminator
                ++ (r :: rs).takeWhile isTerminator ++ [q])
              :: scanFuel fuel rest3
          else
            Sum.inr ((c :: cs).takeWhile notTerminator
                ++ (r :: rs).takeWhile isTerminator)
              :: scanFuel fuel (q :: rest3)

/-- The regex scan of a whole text. -/
def scanText (t : List Char) : List ScanItem := scanFuel t.length t

/-- Concatenation of a scan trace: skipped characters and matches in order. -/
def traceText : List ScanItem → List Char
  | [] => []
  | Sum.inl c :: r => c :: traceText r
  | Sum.inr s :: r => s ++ traceText r

/-- The matches of a scan trace, in order. -/
def segsOf (items : List ScanItem) : List (List Char) :=
  items.filterMap (fun x => match x with | Sum.inl _ => none | Sum.inr s => some s)

/-- The skipped characters of a scan trace, in order. -/
def skippedOf (items : List ScanItem) : List Char :=
  items.filterMap (fun x => match x with | Sum.inl c => some c | Sum.inr _ => none)

/-- The list the regex `match` call returns (empty when it returns `null`). -/
def matchedSegments (t : List Char) : List (List Char) := segsOf (scanText t)

/-- The characters of the text dropped by the regex scan. -/
def droppedChars (t : List Char) : List Char := skippedOf (scanText t)

theorem dropWhile_eq_cons_head_false {α : Type} (p : α → Bool) :
    ∀ (l : List α) (c : α) (cs : List α), l.dropWhile p = c :: cs → p c = false := by
  intro l
  induction l with
  | nil => intro c cs h; simp [List.dropWhile] at h
  | cons a l ih =>
    intro c cs h
    rw [List.dropWhile_cons] at h
    by_cases hp : p a
    · rw [if_pos hp] at h; exact ih c cs h
    · rw [if_neg hp] at h
      obtain ⟨rfl, -⟩ := List.cons.inj h
      simpa using hp

theorem length_dropWhile_le_self {α : Type} (p : α → Bool) (l : List α) :
    (l.dropWhile p).length ≤ l.length := by
  induction l with
  | nil => simp [List.dropWhile]
  | cons a l ih =>
    rw [List.dropWhile_cons]
    by_cases hp : p a
    · rw [if_pos hp]; exact Nat.le_succ_of_le ih
    · rw [if_neg hp]

theorem traceText_scanFuel :
    ∀ (fuel : Nat) (t : List Char), t.length ≤ fuel →
      traceText (scanFuel fuel t) = t := by
  intro fuel
  induction fuel with
  | zero =>
    intro t ht
    have h0 : t = [] := List.length_eq_zero.mp (Nat.le_zero.mp ht)
    subst h0; rfl
  | succ fuel ih =>
    intro t ht
    cases t with
    | nil => rfl
    | cons c cs =>
      have hcs : cs.length ≤ fuel := by simpa using ht
      by_cases hterm : isTerminator c = true
      · simp only [scanFuel, if_pos hterm, traceText]
        rw [ih cs hcs]
      · have hf : isTerminator c = false := by simpa using hterm
        have hnt : notTerminator c = true := by simp [notTerminator, hf]
        have hsplit : (c :: cs).takeWhile notTerminator
            ++ (c :: cs).dropWhile notTerminator = c :: cs :=
          List.takeWhile_append_dropWhile notTerminator (c :: cs)
        have hdrop_len : ((c :: cs).dropWhile notTerminator).length ≤ cs.length := by
          rw [List.dropWhile_cons, if_pos hnt]
          exact length_dropWhile_le_self notTerminator cs
        simp only [scanFuel, if_neg hterm]
        split
        · rename_i hrest
          rw [hrest] at hsplit
          simp only [traceText, List.append_nil]
          simpa using hsplit
        · rename_i r rs hrest
          rw [hrest] at hsplit hdrop_len
          have hsplit2 : (r :: rs).takeWhile isTerminator
              ++ (r :: rs).dropWhile isTerminator = r :: rs :=
            List.takeWhile_append_dropWhile isTerminator (r :: rs)
          have hr : isTerminator r = true := by
            have hh := dropWhile_eq_cons_head_false notTerminator (c :: cs) r rs hrest
            simpa [notTerminator] using hh
          have hdrop2_len : ((r :: rs).dropWhile isTerminator).length ≤ rs.length := by
            rw [List.dropWhile_cons, if_pos hr]
            exact length_dropWhile_le_self isTerminator rs
          split
          · rename_i hrest2
            rw [hrest2, List.append_nil] at hsplit2
            simp only [traceText, List.append_nil]
            rw [hsplit2]
            exact hsplit
          · rename_i q rest3 hrest2
            rw [hrest2] at hsplit2 hdrop2_len
            have h3 : rest3.length ≤ fuel := by
              simp only [List.length_cons] at hdrop_len hdrop2_len
              omega
            have h4 : (q :: rest3).length ≤ fuel := by
              simp only [List.length_cons] at hdrop_len hdrop2_len ⊢
              omega
            by_cases hq : isQuoteMark q = true
            · simp only [if_pos hq, traceText]
              rw [ih rest3 h3]
              rw [List.append_assoc, List.append_assoc, List.singleton_append]
              rw [hsplit2]
              exact hsplit
            · simp only [if_neg hq, traceText]
              rw [ih (q :: rest3) h4]
              rw [List.append_assoc]
              rw [hsplit2]
              exact hsplit

theorem traceText_scanText (t : List Char) : traceText (scanText t) = t :=
  traceText_scanFuel t.length t (Nat.le_refl _)

theorem inl_mem_scanFuel_isTerminator :
    ∀ (fuel : Nat) (t : List Char) (c : Char),
      Sum.inl c ∈ scanFuel fuel t → isTerminator c = true := by
  intro fuel
  induction fuel with
  | zero => intro t c h; simp [scanFuel] at h
  | succ fuel ih =>
    intro t c h
    cases t with
    | nil => simp [scanFuel] at h
    | cons a cs =>
      by_cases hterm : isTerminator a = true
      · simp only [scanFuel, if_pos hterm, List.mem_cons] at h
        rcases h with h | h
        · obtain rfl : c = a := by simpa using h
          exact hterm
        · exact ih cs c h
      · simp only [scanFuel, if_neg hterm] at h
        split at h
        · simp at h
        · split at h
          · simp at h
          · rename_i q rest3 hrest2
            by_cases hq : isQuoteMark q = true
            · rw [if_pos hq] at h
              simp only [List.mem_cons] at h
              rcases h with h | h
              · simp at h
              · exact ih rest3 c h
            · rw [if_neg hq] at h
              simp only [List.mem_cons] at h
              rcases h with h | h
              · simp at h
              · exact ih (q :: rest3) c h

theorem skippedOf_isTerminator (items : List ScanItem) (c : Char)
    (h : c ∈ skippedOf items) : Sum.inl c ∈ items := by
  unfold skippedOf at h
  obtain ⟨x, hx, hc⟩ := List.mem_filterMap.mp h
  cases x with
  | inl a =>
    obtain rfl : a = c := by simpa using hc
    exact hx
  | inr s => simp at hc

theorem droppedChars_isTerminator (t : List Char) (c : Char)
    (h : c ∈ droppedChars t) : isTerminator c = true :=
  inl_mem_scanFuel_isTerminator t.length t c (skippedOf_isTerminator _ c h)

theorem segsOf_cons_inl (c : Char) (rest : List ScanItem) :
    segsOf (Sum.inl c :: rest) = segsOf rest := by
  simp [segsOf, List.filterMap_cons]

theorem segsOf_cons_inr (s : List Char) (rest : List ScanItem) :
    segsOf (Sum.inr s :: rest) = s :: segsOf rest := by
  simp [segsOf, List.filterMap_cons]

theorem skippedOf_cons_inl (c : Char) (rest : List ScanItem) :
    skippedOf (Sum.inl c :: rest) = c :: skippedOf rest := by
  simp [skippedOf, List.filterMap_cons]

theorem skippedOf_cons_inr (s : List Char) (rest : List ScanItem) :
    skippedOf (Sum.inr s :: rest) = skippedOf rest := by
  simp [skippedOf, List.filterMap_cons]

theorem segsOf_flatten_sublist (items : List ScanItem) :
    (segsOf items).flatten.Sublist (traceText items) := by
  induction items with
  | nil => simp [segsOf, traceText]
  | cons x rest ih =>
    cases x with
    | inl c =>
      simp only [segsOf, List.filterMap_cons, traceText]
      exact List.Sublist.cons c ih
    | inr s =>
      simp only [segsOf, List.filterMap_cons, traceText, List.flatten_cons]
      exact List.Sublist.append_left ih s

theorem count_traceText (x : Char) (items : List ScanItem) :
    (traceText items).count x
      = ((segsOf items).flatten.count x) + ((skippedOf items).count x) := by
  induction items with
  | nil => simp [segsOf, skippedOf, traceText]
  | cons it rest ih =>
    cases it with
    | inl c =>
      rw [segsOf_cons_inl, skippedOf_cons_inl]
      simp only [traceText]
      rw [List.count_cons, List.count_cons, ih]
      ring
    | inr s =>
      rw [segsOf_cons_inr, skippedOf_cons_inr]
      simp only [traceText, List.flatten_cons]
      rw [List.count_append, List.count_append, ih]
      ring

theorem segsOf_flatten_of_no_skipped (items : List ScanItem)
    (h : skippedOf items = []) : (segsOf items).flatten = traceText items := by
  induction items with
  | nil => simp [segsOf, traceText]
  | cons it rest ih =>
    cases it with
    | inl c => rw [skippedOf_cons_inl] at h; exact absurd h (by simp)
    | inr s =>
      rw [skippedOf_cons_inr] at h
      rw [segsOf_cons_inr]
      simp only [traceText, List.flatten_cons]
      rw [ih h]

/-! ## The `rawSegments` construction of `ArticleView.tsx` -/

/-- One raw segment as built in `ArticleView.tsx`: the matched text and its
accumulated character offset. -/
structure RawSeg where
  segment : List Char
  index : Nat
deriving DecidableEq, Repr

/-- The index-accumulating map over the regex match list:
`currentIndex += s.length` per segment. -/
def accumulate : Nat → List (List Char) → List RawSeg
  | _, [] => []
  | i, s :: rest => ⟨s, i⟩ :: accumulate (i + s.length) rest

/-- The `rawSegments` construction: the regex match list (or the whole content when the regex
returns `null`) annotated with accumulated start offsets. -/
def rawSegments (t : List Char) : List RawSeg :=
  accumulate 0 (match matchedSegments t with
    | [] => [t]
    | m => m)

/-- Concatenation of all produced segments in order. -/
def concatRaw (t : List Char) : List Char :=
  ((rawSegments t).map RawSeg.segment).flatten

theorem accumulate_get?_index :
    ∀ (segs : List (List Char)) (i k : Nat) (s : RawSeg),
      (accumulate i segs).get? k = some s →
      s.index = i + (((accumulate i segs).take k).map
        (fun r => r.segment.length)).sum := by
  intro segs
  induction segs with
  | nil => intro i k s h; simp [accumulate] at h
  | cons hd tl ih =>
    intro i k s h
    cases k with
    | zero =>
      simp only [accumulate, List.get?] at h
      obtain rfl : (⟨hd, i⟩ : RawSeg) = s := by simpa using h
      simp
    | succ k =>
      simp only [accumulate, List.get?] at h
      have hs := ih (i + hd.length) k s h
      simp only [accumulate, List.take_succ_cons, List.map_cons, List.sum_cons]
      omega

theorem accumulate_map_segment :
    ∀ (segs : List (List Char)) (i : Nat),
      (accumulate i segs).map RawSeg.segment = segs := by
  intro segs
  induction segs with
  | nil => intro i; simp [accumulate]
  | cons hd tl ih => intro i; simp [accumulate, ih]

/-- C2 (amended): the startChar offset of every produced segment equals the sum
of the lengths of all preceding segments; the concatenation of the produced
segments is an order-preserving selection from the original text whose omitted
characters are all sentence terminators (so counts of every non-terminator
character are preserved), and it reproduces the text exactly whenever the scan
drops no character. -/
theorem rawSegments_spec (t : List Char) :
    (∀ (k : Nat) (s : RawSeg), (rawSegments t).get? k = some s →
        s.index = (((rawSegments t).take k).map (fun r => r.segment.length)).sum)
    ∧ (concatRaw t).Sublist t
    ∧ (∀ c : Char, isTerminator c = false → (concatRaw t).count c = t.count c)
    ∧ (droppedChars t = [] → concatRaw t = t) := by
  refine ⟨?_, ?_, ?_, ?_⟩
  · intro k s h
    have hh := accumulate_get?_index _ 0 k s h
    simpa [rawSegments] using hh
  · unfold concatRaw rawSegments
    cases hm : matchedSegments t with
    | nil =>
      simp only [accumulate_map_segment]
      simp
    | cons m ms =>
      simp only [accumulate_map_segment]
      have h1 : (matchedSegments t).flatten.Sublist t := by
        have hh := segsOf_flatten_sublist (scanText t)
        rw [traceText_scanText] at hh
        exact hh
      rw [hm] at h1
      exact h1
  · intro c hc
    have hcount := count_traceText c (scanText t)
    rw [traceText_scanText] at hcount
    have hzero : (droppedChars t).count c = 0 := by
      rw [List.count_eq_zero]
      intro hmem
      rw [droppedChars_isTerminator t c hmem] at hc
      simp at hc
    unfold concatRaw rawSegments
    cases hm : matchedSegments t with
    | nil => simp [accumulate_map_segment]
    | cons m ms =>
      simp only [accumulate_map_segment]
      rw [← hm]
      unfold droppedChars at hzero
      unfold matchedSegments at hm ⊢
      omega
  · intro hdrop
    have hflat := segsOf_flatten_of_no_skipped (scanText t) hdrop
    rw [traceText_scanText] at hflat
    unfold concatRaw rawSegments
    cases hm : matchedSegments t with
    | nil => simp [accumulate_map_segment]
    | cons m ms =>
      simp only [accumulate_map_segment]
      rw [← hm]
      exact hflat

/-- Witness for C2 on the text "ab": no character is dropped and the
concatenation reproduces the text. -/
theorem rawSegments_spec_witness :
    droppedChars ("ab".toList) = [] ∧ concatRaw ("ab".toList) = "ab".toList := by
  refine ⟨by decide, ?_⟩
  exact (rawSegments_spec ("ab".toList)).2.2.2 (by decide)

/-- C2 counterexample: for the text ".a" the regex fallback drops the leading
terminator, so concatenating the produced segments does not reproduce the
original text. -/
theorem rawSegments_concat_counterexample :
    concatRaw (".a".toList) ≠ ".a".toList := by decide

/-! ## Timeline Mapper (`allMapped` in `ArticleView.tsx`) -/

/-- One mapped sentence span, the element shape built by `allMapped`. -/
structure SentenceData where
  id : String
  text : List Char
  startChar : Nat
  endChar : Nat
  startTime : ℚ
  endTime : ℚ
  isWhitespace : Bool
deriving DecidableEq, Repr

/-- The id scheme of mapped spans. -/
def mkId (i : Nat) : String := "s-" ++ toString i

/-- Total heuristic weight of an ordered segment list, the reduce in
`ArticleView.tsx`. -/
def totalWeight (segs : List RawSeg) : Nat :=
  (segs.map (fun s => getWeight s.segment)).sum

/-- Cumulative weight of the first `k` segments. -/
def prefixW (segs : List RawSeg) (k : Nat) : Nat :=
  ((segs.take k).map (fun s => getWeight s.segment)).sum

/-- The weighted time mapping: running cumulative weight `cw`, start and end
times as weight fractions of the duration, faithful to `allMapped`. -/
def mapSpans (tw d : ℚ) : List RawSeg → Nat → Nat → List SentenceData
  | [], _, _ => []
  | s :: rest, cw, i =>
    { id := mkId i
      text := s.segment
      startChar := s.index
      endChar := s.index + s.segment.length
      startTime := ((cw : ℚ) / tw) * d
      endTime := (((cw + getWeight s.segment : Nat) : ℚ) / tw) * d
      isWhitespace := s.segment.all Char.isWhitespace }
      :: mapSpans tw d rest (cw + getWeight s.segment) (i + 1)

/-- The `allMapped` list: every raw segment annotated with its time range. -/
def allMapped (segs : List RawSeg) (d : ℚ) : List SentenceData :=
  mapSpans ((totalWeight segs : Nat) : ℚ) d segs 0 0

/-- The rendered sentence list: whitespace-only spans filtered out. -/
def renderedSentences (segs : List RawSeg) (d : ℚ) : List SentenceData :=
  (allMapped segs d).filter (fun s => ! s.isWhitespace)

theorem prefixW_zero (segs : List RawSeg) : prefixW segs 0 = 0 := by
  simp [prefixW]

theorem prefixW_cons_succ (s : RawSeg) (rest : List RawSeg) (k : Nat) :
    prefixW (s :: rest) (k + 1) = getWeight s.segment + prefixW rest k := by
  simp [prefixW, List.take_succ_cons]

theorem prefixW_mono (segs : List RawSeg) (k : Nat) :
    prefixW segs k ≤ prefixW segs (k + 1) := by
  induction segs generalizing k with
  | nil => simp [prefixW]
  | cons s rest ih =>
    cases k with
    | zero => simp [prefixW_zero, prefixW_cons_succ]
    | succ k =>
      rw [prefixW_cons_succ, prefixW_cons_succ]
      exact Nat.add_le_add_left (ih k) _

theorem prefixW_le_totalWeight (segs : List RawSeg) (k : Nat) :
    prefixW segs k ≤ totalWeight segs := by
  induction segs generalizing k with
  | nil => simp [prefixW, totalWeight]
  | cons s rest ih =>
    cases k with
    | zero => simp [prefixW_zero]
    | succ k =>
      rw [prefixW_cons_succ]
      simp only [totalWeight, List.map_cons, List.sum_cons]
      exact Nat.add_le_add_left (ih k) _

theorem prefixW_length (segs : List RawSeg) :
    prefixW segs segs.length = totalWeight segs := by
  simp [prefixW, totalWeight, List.take_length]

theorem mapSpans_length (tw d : ℚ) :
    ∀ (segs : List RawSeg) (cw i : Nat),
      (mapSpans tw d segs cw i).length = segs.length := by
  intro segs
  induction segs with
  | nil => intro cw i; rfl
  | cons s rest ih => intro cw i; simp [mapSpans, ih]

theorem mapSpans_get?_time (tw d : ℚ) :
    ∀ (segs : List RawSeg) (cw i k : Nat),
      ((mapSpans tw d segs cw i).get? k).map (fun x => (x.startTime, x.endTime))
        = (segs.get? k).map (fun _ =>
            ((((cw + prefixW segs k : Nat) : ℚ) / tw) * d,
             (((cw + prefixW segs (k + 1) : Nat) : ℚ) / tw) * d)) := by
  intro segs
  induction segs with
  | nil => intro cw i k; simp [mapSpans]
  | cons s rest ih =>
    intro cw i k
    cases k with
    | zero =>
      simp [mapSpans, prefixW_zero, prefixW_cons_succ, prefixW]
    | succ k =>
      simp only [mapSpans, List.get?]
      rw [ih (cw + getWeight s.segment) (i + 1) k]
      rw [prefixW_cons_succ, prefixW_cons_succ]
      simp only [Nat.add_assoc]

/-- C1: with strictly positive total weight and positive duration, every
mapped span's start/end time is its cumulative-weight fraction of the
duration; the first span starts at 0, the last span ends exactly at the
duration, adjacent spans share their boundary, and the time sequence is
monotonically non-decreasing within `[0, d]`. -/
theorem allMapped_spec (segs : List RawSeg) (d : ℚ)
    (hw : 0 < totalWeight segs) (hd : 0 < d) :
    (∀ (k : Nat) (s : SentenceData), (allMapped segs d).get? k = some s →
        s.startTime = ((prefixW segs k : ℚ) / (totalWeight segs : ℚ)) * d
          ∧ s.endTime = ((prefixW segs (k + 1) : ℚ) / (totalWeight segs : ℚ)) * d)
    ∧ (∀ s : SentenceData, (allMapped segs d).get? 0 = some s → s.startTime = 0)
    ∧ (∀ s : SentenceData,
        (allMapped segs d).get? (segs.length - 1) = some s → s.endTime = d)
    ∧ (∀ (k : Nat) (s s2 : SentenceData), (allMapped segs d).get? k = some s →
        (allMapped segs d).get? (k + 1) = some s2 → s.endTime = s2.startTime)
    ∧ (∀ (k : Nat) (s : SentenceData), (allMapped segs d).get? k = some s →
        0 ≤ s.startTime ∧ s.startTime ≤ s.endTime ∧ s.endTime ≤ d) := by
  have htw : (0 : ℚ) < ((totalWeight segs : Nat) : ℚ) := by
    exact_mod_cast hw
  have key : ∀ (k : Nat) (s : SentenceData), (allMapped segs d).get? k = some s →
      s.startTime = ((prefixW segs k : ℚ) / (totalWeight segs : ℚ)) * d
        ∧ s.endTime = ((prefixW segs (k + 1) : ℚ) / (totalWeight segs : ℚ)) * d := by
    intro k s h
    have hmap := mapSpans_get?_time ((totalWeight segs : Nat) : ℚ) d segs 0 0 k
    rw [show allMapped segs d
        = mapSpans ((totalWeight segs : Nat) : ℚ) d segs 0 0 from rfl] at h
    rw [h] at hmap
    cases hg : segs.get? k with
    | none => rw [hg] at hmap; simp at hmap
    | some seg =>
      rw [hg] at hmap
      simp only [Option.map_some, Nat.zero_add] at hmap
      have hpair := Option.some.inj hmap
      constructor
      · have := congrArg Prod.fst hpair
        simpa using this
      · have := congrArg Prod.snd hpair
        simpa using this
  have hfrac_le : ∀ a b : Nat, a ≤ b →
      ((a : ℚ) / (totalWeight segs : ℚ)) * d
        ≤ ((b : ℚ) / (totalWeight segs : ℚ)) * d := by
    intro a b hab
    have h1 : (a : ℚ) ≤ (b : ℚ) := by exact_mod_cast hab
    have h2 : (a : ℚ) / (totalWeight segs : ℚ) ≤ (b : ℚ) / (totalWeight segs : ℚ) :=
      by gcongr
    exact mul_le_mul_of_nonneg_right h2 (le_of_lt hd)
  refine ⟨key, ?_, ?_, ?_, ?_⟩
  · intro s h
    have hs := (key 0 s h).1
    rw [hs, prefixW_zero]
    simp
  · intro s h
    have hs := (key (segs.length - 1) s h).2
    have hlen : segs ≠ [] := by
      intro hnil
      rw [hnil] at hw
      simp [totalWeight] at hw
    have hpos : 0 < segs.length := List.length_pos.mpr hlen
    have hidx : segs.length - 1 + 1 = segs.length := by omega
    rw [hs, hidx, prefixW_length]
    rw [div_self (ne_of_gt htw)]
    simp
  · intro k s s2 h h2
    have hs := (key k s h).2
    have hs2 := (key (k + 1) s2 h2).1
    rw [hs, hs2]
  · intro k s h
    obtain ⟨hs, he⟩ := key k s h
    refine ⟨?_, ?_, ?_⟩
    · rw [hs]
      have : (0 : ℚ) ≤ (prefixW segs k : ℚ) / (totalWeight segs : ℚ) :=
        div_nonneg (by positivity) (le_of_lt htw)
      exact mul_nonneg this (le_of_lt hd)
    · rw [hs, he]
      exact hfrac_le _ _ (prefixW_mono segs k)
    · rw [he]
      have hle := hfrac_le (prefixW segs (k + 1)) (totalWeight segs)
        (prefixW_le_totalWeight segs (k + 1))
      rw [div_self (ne_of_gt htw), one_mul] at hle
      exact hle

/-- Witness for C1 on the text "Hi. Yo" mapped over duration 10: the first
span starts at 0. -/
theorem allMapped_spec_witness :
    ((allMapped (rawSegments ("Hi. Yo".toList)) 10).get? 0).map
        (fun s => s.startTime) = some 0 := by
  cases hg : (allMapped (rawSegments ("Hi. Yo".toList)) 10).get? 0 with
  | none =>
    exfalso
    have hlen : (allMapped (rawSegments ("Hi. Yo".toList)) 10).length = 2 := by
      rw [show allMapped (rawSegments ("Hi. Yo".toList)) 10
          = mapSpans ((totalWeight (rawSegments ("Hi. Yo".toList)) : Nat) : ℚ)
              10 (rawSegments ("Hi. Yo".toList)) 0 0 from rfl]
      rw [mapSpans_length]
      decide
    rw [List.get?_eq_none] at hg
    omega
  | some s =>
    have h0 := (allMapped_spec (rawSegments ("Hi. Yo".toList)) 10
      (by decide) (by norm_num)).2.1 s hg
    simp [h0]

/-! ## Sync Clock: active sentence resolution -/

/-- The `activeSentenceId` computation: the id of the first sentence whose time range contains
the current position, from `ArticleView.tsx`
(`sentences.find(s => currentTime >= s.startTime && currentTime < s.endTime)`). -/
def activeSentenceId (ss : List SentenceData) (currentTime : ℚ) : Option String :=
  (ss.find? (fun s =>
    decide (s.startTime ≤ currentTime) && decide (currentTime < s.endTime))).map
    (fun s => s.id)

theorem allMapped_get?_time (segs : List RawSeg) (d : ℚ) (k : Nat)
    (s : SentenceData) (h : (allMapped segs d).get? k = some s) :
    s.startTime = ((prefixW segs k : ℚ) / ((totalWeight segs : Nat) : ℚ)) * d
      ∧ s.endTime = ((prefixW segs (k + 1) : ℚ) / ((totalWeight segs : Nat) : ℚ)) * d := by
  have hmap := mapSpans_get?_time ((totalWeight segs : Nat) : ℚ) d segs 0 0 k
  rw [show allMapped segs d
      = mapSpans ((totalWeight segs : Nat) : ℚ) d segs 0 0 from rfl] at h
  rw [h] at hmap
  cases hg : segs.get? k with
  | none => rw [hg] at hmap; simp at hmap
  | some seg =>
    rw [hg] at hmap
    simp only [Option.map_some', Nat.zero_add] at hmap
    have hpair := Option.some.inj hmap
    constructor
    · have h1 := congrArg Prod.fst hpair
      simpa using h1
    · have h2 := congrArg Prod.snd hpair
      simpa using h2

theorem div_cast_mul_mono (a b W : Nat) (d : ℚ) (hd : 0 ≤ d) (hab : a ≤ b) :
    ((a : ℚ) / (W : ℚ)) * d ≤ ((b : ℚ) / (W : ℚ)) * d := by
  rcases Nat.eq_zero_or_pos W with hW | hW
  · subst hW; simp
  · have hWQ : (0 : ℚ) < (W : ℚ) := by exact_mod_cast hW
    have h1 : (a : ℚ) ≤ (b : ℚ) := by exact_mod_cast hab
    have h2 : (a : ℚ) / (W : ℚ) ≤ (b : ℚ) / (W : ℚ) := by gcongr
    exact mul_le_mul_of_nonneg_right h2 hd

theorem div_cast_mul_le_self (a W : Nat) (d : ℚ) (hd : 0 ≤ d) (haW : a ≤ W) :
    ((a : ℚ) / (W : ℚ)) * d ≤ d := by
  rcases Nat.eq_zero_or_pos W with hW | hW
  · subst hW; simpa using hd
  · have hWQ : (0 : ℚ) < (W : ℚ) := by exact_mod_cast hW
    have h1 : (a : ℚ) / (W : ℚ) ≤ 1 :=
      div_le_one_of_le₀ (by exact_mod_cast haW) (le_of_lt hWQ)
    calc ((a : ℚ) / (W : ℚ)) * d ≤ 1 * d := mul_le_mul_of_nonneg_right h1 hd
    _ = d := one_mul d

theorem prefixW_le_of_le (segs : List RawSeg) {k m : Nat} (h : k ≤ m) :
    prefixW segs k ≤ prefixW segs m := by
  induction h with
  | refl => exact Nat.le_refl _
  | step _ ih => exact Nat.le_trans ih (prefixW_mono segs _)

theorem allMapped_endTime_le (segs : List RawSeg) (d : ℚ) (hd : 0 ≤ d) :
    ∀ s ∈ allMapped segs d, s.endTime ≤ d := by
  intro s hs
  obtain ⟨k, hk⟩ := List.mem_iff_get?.mp hs
  have hf := (allMapped_get?_time segs d k s hk).2
  rw [hf]
  exact div_cast_mul_le_self _ _ d hd (prefixW_le_totalWeight segs (k + 1))

theorem allMapped_pairwise (segs : List RawSeg) (d : ℚ) (hd : 0 ≤ d) :
    (allMapped segs d).Pairwise (fun a b => a.endTime ≤ b.startTime) := by
  rw [List.pairwise_iff_get]
  intro i j hij
  have hi : (allMapped segs d).get? i.val = some ((allMapped segs d).get i) :=
    List.get?_eq_get i.isLt
  have hj : (allMapped segs d).get? j.val = some ((allMapped segs d).get j) :=
    List.get?_eq_get j.isLt
  have hfi := (allMapped_get?_time segs d i.val _ hi).2
  have hfj := (allMapped_get?_time segs d j.val _ hj).1
  rw [hfi, hfj]
  exact div_cast_mul_mono _ _ _ d hd (prefixW_le_of_le segs (by omega))

theorem renderedSentences_pairwise (segs : List RawSeg) (d : ℚ) (hd : 0 ≤ d) :
    (renderedSentences segs d).Pairwise (fun a b => a.endTime ≤ b.startTime) :=
  (allMapped_pairwise segs d hd).sublist (List.filter_sublist _)

theorem activeSentenceId_isSome_iff (ss : List SentenceData) (p : ℚ) :
    (activeSentenceId ss p).isSome = true
      ↔ ∃ s ∈ ss, s.startTime ≤ p ∧ p < s.endTime := by
  induction ss with
  | nil => simp [activeSentenceId]
  | cons a l ih =>
    by_cases ha : (decide (a.startTime ≤ p) && decide (p < a.endTime)) = true
    · simp only [activeSentenceId, List.find?_cons, ha]
      simp only [Bool.and_eq_true, decide_eq_true_eq] at ha
      simp only [Option.map_some', Option.isSome_some, true_iff]
      exact ⟨a, List.mem_cons_self a l, ha.1, ha.2⟩
    · simp only [activeSentenceId, List.find?_cons, ha]
      constructor
      · intro h
        obtain ⟨s, hmem, hcond⟩ := (ih.mp h)
        exact ⟨s, List.mem_cons_of_mem a hmem, hcond⟩
      · intro h
        obtain ⟨s, hmem, h1, h2⟩ := h
        rcases List.mem_cons.mp hmem with rfl | hmem
        · exact absurd (by simp [h1, h2]) ha
        · exact ih.mpr ⟨s, hmem, h1, h2⟩

theorem activeSentenceId_unique (ss : List SentenceData) (p : ℚ)
    (hpw : ss.Pairwise (fun a b => a.endTime ≤ b.startTime)) :
    ∀ s ∈ ss, s.startTime ≤ p → p < s.endTime →
      activeSentenceId ss p = some s.id := by
  induction ss with
  | nil => intro s hmem; cases hmem
  | cons a l ih =>
    intro s hmem hs1 hs2
    rw [List.pairwise_cons] at hpw
    by_cases ha : (decide (a.startTime ≤ p) && decide (p < a.endTime)) = true
    · simp only [activeSentenceId, List.find?_cons, ha, Option.map_some']
      rcases List.mem_cons.mp hmem with rfl | hmem
      · rfl
      · simp only [Bool.and_eq_true, decide_eq_true_eq] at ha
        have hord := hpw.1 s hmem
        exact absurd (lt_of_lt_of_le ha.2 (le_trans hord hs1)) (lt_irrefl p)
    · have hsa : s ≠ a := by
        intro hcontra
        subst hcontra
        exact ha (by simp [hs1, hs2])
      rcases List.mem_cons.mp hmem with rfl | hmem
      · exact absurd rfl hsa
      · simp only [activeSentenceId, List.find?_cons, ha]
        exact ih hpw.2 s hmem hs1 hs2

theorem activeSentenceId_at_duration (segs : List RawSeg) (d : ℚ) (hd : 0 ≤ d) :
    activeSentenceId (renderedSentences segs d) d = none := by
  cases h : activeSentenceId (renderedSentences segs d) d with
  | none => rfl
  | some i =>
    exfalso
    have hsome : (activeSentenceId (renderedSentences segs d) d).isSome = true := by
      rw [h]; rfl
    obtain ⟨s, hmem, -, h2⟩ :=
      (activeSentenceId_isSome_iff (renderedSentences segs d) d).mp hsome
    have hin : s ∈ allMapped segs d := List.mem_of_mem_filter hmem
    exact absurd (lt_of_lt_of_le h2 (allMapped_endTime_le segs d hd s hin))
      (lt_irrefl d)

/-- C6 (amended): the active sentence is the unique rendered span satisfying
startTime ≤ p < endTime — under the pairwise ordering the mapped spans enjoy,
the find returns exactly the satisfying span and succeeds iff one exists; but
every span's endTime, including the last one's, is exclusive, so at p equal to
the total duration no sentence is resolved as active. -/
theorem activeSentenceId_spec :
    (∀ (ss : List SentenceData) (p : ℚ),
        (activeSentenceId ss p).isSome = true
          ↔ ∃ s ∈ ss, s.startTime ≤ p ∧ p < s.endTime)
    ∧ (∀ (ss : List SentenceData) (p : ℚ),
        ss.Pairwise (fun a b => a.endTime ≤ b.startTime) →
        ∀ s ∈ ss, s.startTime ≤ p → p < s.endTime →
          activeSentenceId ss p = some s.id)
    ∧ (∀ (segs : List RawSeg) (d : ℚ), 0 ≤ d →
        (renderedSentences segs d).Pairwise (fun a b => a.endTime ≤ b.startTime))
    ∧ (∀ (segs : List RawSeg) (d : ℚ), 0 ≤ d →
        activeSentenceId (renderedSentences segs d) d = none) :=
  ⟨activeSentenceId_isSome_iff, activeSentenceId_unique,
   renderedSentences_pairwise, activeSentenceId_at_duration⟩

/-- Witness for C6 on the text "Hi. Yo" with duration 10: at position 10 (the
duration) no sentence is active. -/
theorem activeSentenceId_spec_witness :
    (0 : ℚ) ≤ 10
      ∧ activeSentenceId
          (renderedSentences (rawSegments ("Hi. Yo".toList)) 10) 10 = none :=
  ⟨by norm_num,
   activeSentenceId_spec.2.2.2 (rawSegments ("Hi. Yo".toList)) 10 (by norm_num)⟩

/-- C6 counterexample: on "Hi" mapped over duration 10 the rendered sentence
list is nonempty and its final (only) span ends exactly at 10, yet at clock
position 10 (the total duration) the code resolves no active sentence — the
final span's endTime is not treated as inclusive. -/
theorem activeSentenceId_at_duration_counterexample :
    renderedSentences (rawSegments ("Hi".toList)) 10 ≠ []
      ∧ activeSentenceId
          (renderedSentences (rawSegments ("Hi".toList)) 10) 10 = none := by
  have hraw : rawSegments ("Hi".toList) = [⟨"Hi".toList, 0⟩] := by decide
  have hw : totalWeight [(⟨"Hi".toList, 0⟩ : RawSeg)] = 2 := by decide
  have hgw : getWeight ("Hi".toList) = 2 := by decide
  have hws : ("Hi".toList).all Char.isWhitespace = false := by decide
  have hrend : renderedSentences (rawSegments ("Hi".toList)) 10
      = [{ id := mkId 0, text := "Hi".toList, startChar := 0,
           endChar := 0 + ("Hi".toList).length,
           startTime := (((0 : Nat) : ℚ) / ((2 : Nat) : ℚ)) * 10,
           endTime := ((((0 + 2 : Nat)) : ℚ) / ((2 : Nat) : ℚ)) * 10,
           isWhitespace := false }] := by
    rw [renderedSentences, allMapped, hraw, hw]
    simp only [mapSpans, hgw, hws]
    simp [List.filter]
  refine ⟨?_, ?_⟩
  · rw [hrend]; simp
  · rw [hrend, activeSentenceId]
    have hlt : ¬((10 : ℚ) < ((((0 + 2 : Nat)) : ℚ) / ((2 : Nat) : ℚ)) * 10) := by
      norm_num
    simp only [List.find?]
    rw [decide_eq_false hlt, Bool.and_false]
    simp [List.find?]

/-! ## Playback Backend: the loop clamp of `play` in `ArticleView.tsx` -/

/-- A loop range `{start, end}` (the `end` field is called `stop` since `end`
is reserved). -/
structure LoopRange where
  start : ℚ
  stop : ℚ
deriving DecidableEq, Repr

/-- The offset actually used by the streamed (HTML5 audio) engine:
`if (offset < range.start || offset > range.end) offset = range.start`. -/
def playOffsetExternal (offset : ℚ) (range : Option LoopRange) : ℚ :=
  match range with
  | none => offset
  | some r => if offset < r.start ∨ r.stop < offset then r.start else offset

/-- The offset actually used by the buffered (Web Audio) engine, whose loop
end is first clamped to the buffer duration:
`loopEnd = min(duration, range.end); if (offset < range.start || offset > loopEnd) offset = range.start`. -/
def playOffsetBuffered (offset bufferDuration : ℚ) (range : Option LoopRange) : ℚ :=
  match range with
  | none => offset
  | some r =>
    if offset < r.start ∨ min bufferDuration r.stop < offset then r.start
    else offset

/-- C7: in both playback engines, `play` with a loop range replaces an offset
lying outside the range by the range's start; and for a well-formed range the
resulting offset always lies inside the range. -/
theorem play_clamp_spec (offset bufferDuration : ℚ) (r : LoopRange) :
    ((offset < r.start ∨ r.stop < offset) →
        playOffsetExternal offset (some r) = r.start
          ∧ playOffsetBuffered offset bufferDuration (some r) = r.start)
    ∧ (r.start ≤ r.stop →
        (r.start ≤ playOffsetExternal offset (some r)
            ∧ playOffsetExternal offset (some r) ≤ r.stop)
          ∧ (r.start ≤ playOffsetBuffered offset bufferDuration (some r)
            ∧ playOffsetBuffered offset bufferDuration (some r) ≤ r.stop)) := by
  constructor
  · intro hout
    constructor
    · simp only [playOffsetExternal]
      rw [if_pos hout]
    · simp only [playOffsetBuffered]
      rcases hout with h | h
      · rw [if_pos (Or.inl h)]
      · rw [if_pos (Or.inr (lt_of_le_of_lt (min_le_right _ _) h))]
  · intro hwf
    constructor
    · simp only [playOffsetExternal]
      by_cases hc : offset < r.start ∨ r.stop < offset
      · rw [if_pos hc]; exact ⟨le_refl _, hwf⟩
      · rw [if_neg hc]
        push_neg at hc
        exact ⟨hc.1, hc.2⟩
    · simp only [playOffsetBuffered]
      by_cases hc : offset < r.start ∨ min bufferDuration r.stop < offset
      · rw [if_pos hc]; exact ⟨le_refl _, hwf⟩
      · rw [if_neg hc]
        push_neg at hc
        exact ⟨hc.1, le_trans hc.2 (min_le_right _ _)⟩

/-- Witness for C7: offset 5 outside the loop range [1, 2] is replaced by the
range start 1 in both engines. -/
theorem play_clamp_spec_witness :
    playOffsetExternal 5 (some ⟨1, 2⟩) = 1
      ∧ playOffsetBuffered 5 100 (some ⟨1, 2⟩) = 1 :=
  (play_clamp_spec 5 100 ⟨1, 2⟩).1 (Or.inr (by norm_num))

/-! ## Provider handlers and the Fallback Orchestrator (`aiService.ts`) -/

/-- The provider identifiers of `types.ts`. -/
inductive ApiProvider where
  | gemini
  | openai
  | deepseek
deriving DecidableEq, Repr

/-- Per-provider credential strings; `none` models an absent key. -/
structure ProviderKeys where
  gemini : Option String
  openai : Option String
  deepseek : Option String
deriving DecidableEq, Repr

/-- The `ApiSettings` shape: primary provider, backup provider, keys. -/
structure ApiSettings where
  primary : ApiProvider
  backup : Option ApiProvider
  keys : ProviderKeys
deriving DecidableEq, Repr

/-- Environment-level default keys (`process.env`). -/
structure EnvKeys where
  apiKey : Option String
  openaiApiKey : Option String
  deepseekApiKey : Option String
deriving DecidableEq, Repr

/-- An error is modelled by its message. -/
abbrev ErrorMsg := List Char

/-- Case-insensitive substring test, modelling JavaScript
`msg.includes(needle)` after `toLowerCase()`. -/
def containsSub (needle : List Char) : List Char → Bool
  | [] => needle.isEmpty
  | c :: cs => needle.isPrefixOf (c :: cs) || containsSub needle cs

/-- The `isQuotaError` classifier of `aiService.ts`: the lowercased message contains one of
the quota keywords. -/
def isQuotaError (msg : ErrorMsg) : Bool :=
  let m := msg.map Char.toLower
  containsSub ("quota".toList) m || containsSub ("429".toList) m
    || containsSub ("resource exhausted".toList) m
    || containsSub ("limit".toList) m

/-- The key stored in settings for a provider. -/
def keyFor (keys : ProviderKeys) : ApiProvider → Option String
  | ApiProvider.gemini => keys.gemini
  | ApiProvider.openai => keys.openai
  | ApiProvider.deepseek => keys.deepseek

/-- The environment default consulted for the backup key:
`backupProvider === 'openai' ? process.env.OPENAI_API_KEY : process.env.DEEPSEEK_API_KEY`. -/
def envBackupDefault (env : EnvKeys) : ApiProvider → Option String
  | ApiProvider.openai => env.openaiApiKey
  | _ => env.deepseekApiKey

/-- The backup key resolution of `executeWithFallback`. -/
def resolveBackupKey (settings : ApiSettings) (env : EnvKeys)
    (bp : ApiProvider) : Option String :=
  match keyFor settings.keys bp with
  | some k => some k
  | none => envBackupDefault env bp

/-- The `executeWithFallback` orchestrator of `aiService.ts`: try the Gemini handler; on a
quota-classified failure with a configured non-Gemini backup whose key
resolves, retry once against the backup (whose failure propagates as-is);
otherwise propagate the original failure. -/
def executeWithFallback {α : Type} (op : ApiProvider → Except ErrorMsg α)
    (settings : ApiSettings) (env : EnvKeys) : Except ErrorMsg α :=
  match op ApiProvider.gemini with
  | Except.ok v => Except.ok v
  | Except.error e =>
    match settings.backup with
    | none => Except.error e
    | some bp =>
      if isQuotaError e = true ∧ bp ≠ ApiProvider.gemini
          ∧ (resolveBackupKey settings env bp).isSome = true then
        match op bp with
        | Except.ok v => Except.ok v
        | Except.error be => Except.error be
      else Except.error e

/-- C3: when the primary raises a quota-classified error, a non-Gemini backup
is configured, a key for it resolves, and the backup operation succeeds, the
fallback returns the backup's result. -/
theorem executeWithFallback_quota {α : Type}
    (op : ApiProvider → Except ErrorMsg α) (settings : ApiSettings)
    (env : EnvKeys) (e : ErrorMsg) (bp : ApiProvider) (v : α)
    (hprim : op ApiProvider.gemini = Except.error e)
    (hq : isQuotaError e = true)
    (hbp : settings.backup = some bp)
    (hne : bp ≠ ApiProvider.gemini)
    (hkey : (resolveBackupKey settings env bp).isSome = true)
    (hok : op bp = Except.ok v) :
    executeWithFallback op settings env = Except.ok v := by
  unfold executeWithFallback
  rw [hprim, hbp]
  dsimp only
  rw [if_pos ⟨hq, hne, hkey⟩, hok]

/-- Witness for C3: a primary that always fails with "429 rate limit" and an
openai backup holding a key and succeeding with 7. -/
theorem executeWithFallback_quota_witness :
    executeWithFallback
        (fun p => match p with
          | ApiProvider.gemini => Except.error ("429 rate limit".toList)
          | _ => Except.ok (7 : Nat))
        { primary := ApiProvider.gemini, backup := some ApiProvider.openai,
          keys := { gemini := none, openai := some "sk-b", deepseek := none } }
        { apiKey := none, openaiApiKey := none, deepseekApiKey := none }
      = Except.ok 7 :=
  executeWithFallback_quota _ _ _ ("429 rate limit".toList) ApiProvider.openai 7
    rfl (by decide) rfl (by decide) (by decide) rfl

/-- The key the Gemini handler resolves:
`settings.keys.gemini || process.env.API_KEY`. -/
def geminiKey (settings : ApiSettings) (env : EnvKeys) : Option String :=
  match settings.keys.gemini with
  | some k => some k
  | none => env.apiKey

/-- The key each handler resolves for itself (`getKey` of the two handler
classes). -/
def handlerKey (settings : ApiSettings) (env : EnvKeys) :
    ApiProvider → Option String
  | ApiProvider.gemini => geminiKey settings env
  | ApiProvider.openai =>
    match settings.keys.openai with
    | some k => some k
    | none => env.openaiApiKey
  | ApiProvider.deepseek =>
    match settings.keys.deepseek with
    | some k => some k
    | none => env.deepseekApiKey

/-- The missing-credential error message each handler throws. -/
def missingKeyMsg : ApiProvider → ErrorMsg
  | ApiProvider.gemini => "Gemini API Key missing".toList
  | ApiProvider.openai => "openai API Key missing".toList
  | ApiProvider.deepseek => "deepseek API Key missing".toList

/-- The word-analysis operation of one handler: a missing-credential failure
when no key resolves, otherwise the provider's (abstracted) network response. -/
def analyzeWordOp {α : Type} (net : ApiProvider → Except ErrorMsg α)
    (settings : ApiSettings) (env : EnvKeys) (p : ApiProvider) :
    Except ErrorMsg α :=
  match handlerKey settings env p with
  | none => Except.error (missingKeyMsg p)
  | some _ => net p

/-- The `analyzeWord` entry point: the public word-analysis call, one handler operation
run through the fallback orchestrator. -/
def analyzeWord {α : Type} (net : ApiProvider → Except ErrorMsg α)
    (settings : ApiSettings) (env : EnvKeys) : Except ErrorMsg α :=
  executeWithFallback (analyzeWordOp net settings env) settings env

theorem handlerKey_eq_resolveBackupKey (settings : ApiSettings) (env : EnvKeys)
    (bp : ApiProvider) (h : bp ≠ ApiProvider.gemini) :
    handlerKey settings env bp = resolveBackupKey settings env bp := by
  cases bp with
  | gemini => exact absurd rfl h
  | openai => rfl
  | deepseek => rfl

/-- C4 (amended): when the primary (Gemini) credential is missing, a
word-analysis call fails with the primary's missing-credential error and the
backup is never consulted, because a missing-credential failure is not
quota-classified; the backup's result is returned only when the primary fails
with a quota-classified error. -/
theorem analyzeWord_spec {α : Type} (net : ApiProvider → Except ErrorMsg α)
    (settings : ApiSettings) (env : EnvKeys) :
    (geminiKey settings env = none →
        analyzeWord net settings env
          = Except.error (missingKeyMsg ApiProvider.gemini))
    ∧ (∀ (e : ErrorMsg) (bp : ApiProvider) (v : α),
        geminiKey settings env ≠ none →
        net ApiProvider.gemini = Except.error e →
        isQuotaError e = true →
        settings.backup = some bp →
        bp ≠ ApiProvider.gemini →
        (resolveBackupKey settings env bp).isSome = true →
        net bp = Except.ok v →
        analyzeWord net settings env = Except.ok v) := by
  constructor
  · intro hkey
    have hop : analyzeWordOp net settings env ApiProvider.gemini
        = Except.error (missingKeyMsg ApiProvider.gemini) := by
      unfold analyzeWordOp
      rw [show handlerKey settings env ApiProvider.gemini
          = geminiKey settings env from rfl, hkey]
    unfold analyzeWord executeWithFallback
    rw [hop]
    dsimp only
    cases hbp : settings.backup with
    | none => rfl
    | some bp =>
      dsimp only
      rw [if_neg]
      intro hcon
      have hqf : isQuotaError (missingKeyMsg ApiProvider.gemini) = false := by
        decide
      rw [hqf] at hcon
      exact absurd hcon.1 (by simp)
  · intro e bp v hkey hprim hq hbp hne hbk hok
    have hgk : ∃ k, geminiKey settings env = some k := by
      cases hg : geminiKey settings env with
      | none => exact absurd hg hkey
      | some k => exact ⟨k, rfl⟩
    obtain ⟨k, hgk⟩ := hgk
    have hop : analyzeWordOp net settings env ApiProvider.gemini
        = Except.error e := by
      unfold analyzeWordOp
      rw [show handlerKey settings env ApiProvider.gemini
          = geminiKey settings env from rfl, hgk]
      exact hprim
    have hbk2 : ∃ k2, handlerKey settings env bp = some k2 := by
      rw [handlerKey_eq_resolveBackupKey settings env bp hne]
      cases hr : resolveBackupKey settings env bp with
      | none => rw [hr] at hbk; simp at hbk
      | some k2 => exact ⟨k2, rfl⟩
    obtain ⟨k2, hbk2⟩ := hbk2
    have hopb : analyzeWordOp net settings env bp = Except.ok v := by
      unfold analyzeWordOp
      rw [hbk2]
      exact hok
    unfold analyzeWord executeWithFallback
    rw [hop, hbp]
    dsimp only
    rw [if_pos ⟨hq, hne, hbk⟩, hopb]

/-- Witness for C4 at a concrete configuration: Gemini key absent everywhere,
openai backup configured with a valid key and a succeeding network call — the
call still fails with the missing-credential error. -/
theorem analyzeWord_spec_witness :
    geminiKey
        { primary := ApiProvider.gemini, backup := some ApiProvider.openai,
          keys := { gemini := none, openai := some "sk-valid", deepseek := none } }
        { apiKey := none, openaiApiKey := none, deepseekApiKey := none } = none
      ∧ analyzeWord (fun _ => Except.ok (1 : Nat))
          { primary := ApiProvider.gemini, backup := some ApiProvider.openai,
            keys := { gemini := none, openai := some "sk-valid", deepseek := none } }
          { apiKey := none, openaiApiKey := none, deepseekApiKey := none }
        = Except.error (missingKeyMsg ApiProvider.gemini) :=
  ⟨rfl,
   (analyzeWord_spec (fun _ => Except.ok (1 : Nat))
      { primary := ApiProvider.gemini, backup := some ApiProvider.openai,
        keys := { gemini := none, openai := some "sk-valid", deepseek := none } }
      { apiKey := none, openaiApiKey := none, deepseekApiKey := none }).1 rfl⟩

/-- C4 counterexample: settings with an absent primary (Gemini) key and a
valid backup (openai) key whose network call would succeed — the word-analysis
call raises the missing-credential error instead of returning the backup's
result, because a missing-credential failure is not quota-classified. -/
theorem analyzeWord_swap_counterexample :
    analyzeWord (fun _ => Except.ok (1 : Nat))
        { primary := ApiProvider.gemini, backup := some ApiProvider.openai,
          keys := { gemini := none, openai := some "sk-valid", deepseek := none } }
        { apiKey := none, openaiApiKey := none, deepseekApiKey := none }
      ≠ Except.ok 1 := by
  intro hcon
  have hres : analyzeWord (fun _ => Except.ok (1 : Nat))
      { primary := ApiProvider.gemini, backup := some ApiProvider.openai,
        keys := { gemini := none, openai := some "sk-valid", deepseek := none } }
      { apiKey := none, openaiApiKey := none, deepseekApiKey := none }
      = Except.error (missingKeyMsg ApiProvider.gemini) := by rfl
  rw [hres] at hcon
  exact Except.noConfusion hcon

/-! ## Spaced repetition: `INTERVALS`, `handleFlashcardResult`,
`updateVocabularyItem` of the application root -/

/-- The Ebbinghaus interval table in milliseconds: 1, 3, 7, 15, 30 days. -/
def INTERVALS : List Nat :=
  [1 * 24 * 60 * 60 * 1000,
   3 * 24 * 60 * 60 * 1000,
   7 * 24 * 60 * 60 * 1000,
   15 * 24 * 60 * 60 * 1000,
   30 * 24 * 60 * 60 * 1000]

/-- The review-scheduling fields of a vocabulary item. -/
structure VocabularyItem where
  id : String
  word : String
  reviewStage : Nat
  addedAt : Nat
  lastReviewedAt : Option Nat
  nextReviewAt : Nat
deriving DecidableEq, Repr

/-- The per-item update of `handleFlashcardResult`: on success advance the
stage and schedule with the clamped interval index; on failure reset to stage
0 and the first interval. -/
def handleFlashcardResult (item : VocabularyItem) (success : Bool)
    (now : Nat) : VocabularyItem :=
  if success then
    let nextStage := item.reviewStage + 1
    let intervalIndex := min nextStage (INTERVALS.length - 1)
    { item with
      reviewStage := nextStage
      lastReviewedAt := some now
      nextReviewAt := now + INTERVALS.getD intervalIndex 0 }
  else
    { item with
      reviewStage := 0
      lastReviewedAt := some now
      nextReviewAt := now + INTERVALS.getD 0 0 }

/-- C8: marking success advances the stage by one, stamps the review time and
schedules `now + INTERVALS[min(stage+1, 4)]`; marking failure resets the stage
to 0 and schedules `now + INTERVALS[0]`; in particular an item at stage 2
marked success moves to stage 3 with next due `now + INTERVALS[3]`. -/
theorem handleFlashcardResult_spec (item : VocabularyItem) (now : Nat) :
    ((handleFlashcardResult item true now).reviewStage = item.reviewStage + 1
      ∧ (handleFlashcardResult item true now).lastReviewedAt = some now
      ∧ (handleFlashcardResult item true now).nextReviewAt
          = now + INTERVALS.getD (min (item.reviewStage + 1) 4) 0)
    ∧ ((handleFlashcardResult item false now).reviewStage = 0
      ∧ (handleFlashcardResult item false now).lastReviewedAt = some now
      ∧ (handleFlashcardResult item false now).nextReviewAt
          = now + INTERVALS.getD 0 0)
    ∧ (item.reviewStage = 2 →
        (handleFlashcardResult item true now).reviewStage = 3
          ∧ (handleFlashcardResult item true now).nextReviewAt
              = now + 15 * 24 * 60 * 60 * 1000) := by
  refine ⟨⟨rfl, rfl, rfl⟩, ⟨rfl, rfl, rfl⟩, ?_⟩
  intro h2
  constructor
  · simp [handleFlashcardResult, h2]
  · simp [handleFlashcardResult, h2, INTERVALS]

/-- Witness for C8 at a concrete item at stage 2 reviewed at time 1000. -/
theorem handleFlashcardResult_spec_witness :
    ({ id := "w1", word := "bonjour", reviewStage := 2, addedAt := 0,
       lastReviewedAt := none, nextReviewAt := 0 } : VocabularyItem).reviewStage = 2
      ∧ (handleFlashcardResult
          { id := "w1", word := "bonjour", reviewStage := 2, addedAt := 0,
            lastReviewedAt := none, nextReviewAt := 0 } true 1000).reviewStage = 3
      ∧ (handleFlashcardResult
          { id := "w1", word := "bonjour", reviewStage := 2, addedAt := 0,
            lastReviewedAt := none, nextReviewAt := 0 } true 1000).nextReviewAt
          = 1000 + 15 * 24 * 60 * 60 * 1000 :=
  ⟨rfl,
   ((handleFlashcardResult_spec
      { id := "w1", word := "bonjour", reviewStage := 2, addedAt := 0,
        lastReviewedAt := none, nextReviewAt := 0 } 1000).2.2 rfl).1,
   ((handleFlashcardResult_spec
      { id := "w1", word := "bonjour", reviewStage := 2, addedAt := 0,
        lastReviewedAt := none, nextReviewAt := 0 } 1000).2.2 rfl).2⟩

/-- The `updateVocabularyItem` operation: map over the vocabulary list, applying the updater
only to the item with the given id. -/
def updateVocabularyItem (vocab : List VocabularyItem) (id : String)
    (updater : VocabularyItem → VocabularyItem) : List VocabularyItem :=
  vocab.map (fun item => if item.id = id then updater item else item)

/-- C10: the update returns a list of the same length and order in which the
item at each position is unchanged when its id differs from the given id and
is the updater's image when its id matches. -/
theorem updateVocabularyItem_spec (vocab : List VocabularyItem) (id : String)
    (updater : VocabularyItem → VocabularyItem) :
    (updateVocabularyItem vocab id updater).length = vocab.length
    ∧ (∀ k : Nat, (updateVocabularyItem vocab id updater).get? k
        = (vocab.get? k).map
            (fun item => if item.id = id then updater item else item)) := by
  constructor
  · simp [updateVocabularyItem]
  · intro k
    unfold updateVocabularyItem
    induction vocab generalizing k with
    | nil => simp
    | cons a t ih =>
      cases k with
      | zero => rfl
      | succ k => exact ih k

/-! ## Preload-cycle recovery (`refreshContent` of the application root) -/

/-- The outcome of `preloadLanguageContent` for one language: the number of
articles loaded, or a failure. -/
inductive PreloadOutcome where
  | ok (articleCount : Nat)
  | fail (e : ErrorMsg)

/-- The remote configuration returned by `fetchSupabaseConfig` (a subset of
the settings object that may carry keys). -/
structure SupabaseConfig where
  keys : Option ProviderKeys

/-- JavaScript object spread `{...base, ...over}` on the keys record: fields
present in `over` win. -/
def spreadKeys (base over : ProviderKeys) : ProviderKeys where
  gemini := match over.gemini with | some k => some k | none => base.gemini
  openai := match over.openai with | some k => some k | none => base.openai
  deepseek := match over.deepseek with | some k => some k | none => base.deepseek

/-- The recovery guard of `refreshContent`: restart only when the remote
config exists, carries keys, and its gemini key exists and differs from the
current one. -/
def restartCondition (fresh : Option SupabaseConfig)
    (settings : ApiSettings) : Bool :=
  match fresh with
  | none => false
  | some cfg =>
    match cfg.keys with
    | none => false
    | some ks =>
      match ks.gemini with
      | none => false
      | some k => decide (some k ≠ settings.keys.gemini)

/-- The settings adopted on restart: current settings with the fresh keys
spread over the current keys. -/
def adoptedSettings (fresh : Option SupabaseConfig)
    (settings : ApiSettings) : ApiSettings :=
  match fresh with
  | some cfg =>
    match cfg.keys with
    | some ks => { settings with keys := spreadKeys settings.keys ks }
    | none => settings
  | none => settings

/-- The result of one run of the preload cycle: either an early return that
restarts under new settings, or completion with a ready flag per processed
language. -/
inductive RefreshResult (L : Type) where
  | restarted (newSettings : ApiSettings) (states : List (L × Bool))
  | completed (states : List (L × Bool))

/-- Whether an outcome is a quota-classified failure. -/
def quotaFailed : PreloadOutcome → Bool
  | PreloadOutcome.ok _ => false
  | PreloadOutcome.fail e => isQuotaError e

/-- The ready flag a language ends the cycle with. -/
def langStatus : PreloadOutcome → Bool
  | PreloadOutcome.ok n => decide (0 < n)
  | PreloadOutcome.fail _ => false

/-- The per-language states a completed cycle records. -/
def expectedStates {L : Type} (outcome : L → PreloadOutcome)
    (langs : List L) : List (L × Bool) :=
  langs.map (fun l => (l, langStatus (outcome l)))

/-- The sequential language loop of `refreshContent`: on success record the
ready flag; on a quota failure with materially different remote keys adopt
them and return early; on any other failure mark the language failed and
continue. -/
def refreshLoop {L : Type} (outcome : L → PreloadOutcome)
    (fresh : Option SupabaseConfig) (settings : ApiSettings) :
    List L → List (L × Bool) → RefreshResult L
  | [], acc => RefreshResult.completed acc
  | l :: rest, acc =>
    match outcome l with
    | PreloadOutcome.ok n =>
      refreshLoop outcome fresh settings rest (acc ++ [(l, decide (0 < n))])
    | PreloadOutcome.fail e =>
      if isQuotaError e = true ∧ restartCondition fresh settings = true then
        RefreshResult.restarted (adoptedSettings fresh settings) acc
      else
        refreshLoop outcome fresh settings rest (acc ++ [(l, false)])

/-- The `refreshContent` cycle over all languages. -/
def refreshContent {L : Type} (languages : List L)
    (outcome : L → PreloadOutcome) (fresh : Option SupabaseConfig)
    (settings : ApiSettings) : RefreshResult L :=
  refreshLoop outcome fresh settings languages []

theorem refreshLoop_restarted_iff {L : Type} (outcome : L → PreloadOutcome)
    (fresh : Option SupabaseConfig) (settings : ApiSettings) :
    ∀ (langs : List L) (acc : List (L × Bool)),
      (∃ ns states, refreshLoop outcome fresh settings langs acc
          = RefreshResult.restarted ns states)
        ↔ (restartCondition fresh settings = true
            ∧ ∃ l ∈ langs, quotaFailed (outcome l) = true) := by
  intro langs
  induction langs with
  | nil =>
    intro acc
    simp [refreshLoop]
  | cons l rest ih =>
    intro acc
    cases ho : outcome l with
    | ok n =>
      simp only [refreshLoop, ho]
      rw [ih]
      constructor
      · rintro ⟨hc, l2, hmem, hq⟩
        exact ⟨hc, l2, List.mem_cons_of_mem l hmem, hq⟩
      · rintro ⟨hc, l2, hmem, hq⟩
        rcases List.mem_cons.mp hmem with rfl | hmem
        · rw [ho, show quotaFailed (PreloadOutcome.ok n) = false from rfl] at hq
          exact absurd hq (by simp)
        · exact ⟨hc, l2, hmem, hq⟩
    | fail e =>
      simp only [refreshLoop, ho]
      by_cases hcond : isQuotaError e = true ∧ restartCondition fresh settings = true
      · rw [if_pos hcond]
        constructor
        · intro _
          refine ⟨hcond.2, l, List.mem_cons_self l rest, ?_⟩
          rw [ho, show quotaFailed (PreloadOutcome.fail e) = isQuotaError e from rfl]
          exact hcond.1
        · intro _
          exact ⟨_, _, rfl⟩
      · rw [if_neg hcond]
        rw [ih]
        constructor
        · rintro ⟨hc, l2, hmem, hq⟩
          exact ⟨hc, l2, List.mem_cons_of_mem l hmem, hq⟩
        · rintro ⟨hc, l2, hmem, hq⟩
          rcases List.mem_cons.mp hmem with rfl | hmem
          · exfalso
            have hqe : isQuotaError e = true := by
              rw [ho, show quotaFailed (PreloadOutcome.fail e) = isQuotaError e
                from rfl] at hq
              exact hq
            exact hcond ⟨hqe, hc⟩
          · exact ⟨hc, l2, hmem, hq⟩

theorem refreshLoop_restarted_settings {L : Type} (outcome : L → PreloadOutcome)
    (fresh : Option SupabaseConfig) (settings : ApiSettings) :
    ∀ (langs : List L) (acc : List (L × Bool)) (ns : ApiSettings)
      (states : List (L × Bool)),
      refreshLoop outcome fresh settings langs acc
          = RefreshResult.restarted ns states →
      ns = adoptedSettings fresh settings := by
  intro langs
  induction langs with
  | nil => intro acc ns states h; simp [refreshLoop] at h
  | cons l rest ih =>
    intro acc ns states h
    cases ho : outcome l with
    | ok n =>
      simp only [refreshLoop, ho] at h
      exact ih _ ns states h
    | fail e =>
      simp only [refreshLoop, ho] at h
      by_cases hcond : isQuotaError e = true ∧ restartCondition fresh settings = true
      · rw [if_pos hcond] at h
        cases h
        rfl
      · rw [if_neg hcond] at h
        exact ih _ ns states h

theorem refreshLoop_completed {L : Type} (outcome : L → PreloadOutcome)
    (fresh : Option SupabaseConfig) (settings : ApiSettings)
    (hnr : restartCondition fresh settings = false) :
    ∀ (langs : List L) (acc : List (L × Bool)),
      refreshLoop outcome fresh settings langs acc
        = RefreshResult.completed (acc ++ expectedStates outcome langs) := by
  intro langs
  induction langs with
  | nil => intro acc; simp [refreshLoop, expectedStates]
  | cons l rest ih =>
    intro acc
    cases ho : outcome l with
    | ok n =>
      simp only [refreshLoop, ho]
      rw [ih (acc ++ [(l, decide (0 < n))])]
      simp [expectedStates, langStatus, ho]
    | fail e =>
      simp only [refreshLoop, ho]
      rw [if_neg (by rw [hnr]; simp)]
      rw [ih (acc ++ [(l, false)])]
      simp [expectedStates, langStatus, ho]

/-- C5: the preload cycle returns early (restarting under the spread-merged
settings) iff the remote store's gemini key exists and differs from the
current one and some language fails with a quota-classified error; when the
fetched key is identical or absent it never restarts and completes, marking
each failing language not ready and each succeeding language by whether it
loaded articles. -/
theorem refreshContent_spec {L : Type} (languages : List L)
    (outcome : L → PreloadOutcome) (fresh : Option SupabaseConfig)
    (settings : ApiSettings) :
    ((∃ ns states, refreshContent languages outcome fresh settings
          = RefreshResult.restarted ns states)
        ↔ (restartCondition fresh settings = true
            ∧ ∃ l ∈ languages, quotaFailed (outcome l) = true))
    ∧ (∀ ns states, refreshContent languages outcome fresh settings
          = RefreshResult.restarted ns states →
        ns = adoptedSettings fresh settings)
    ∧ (restartCondition fresh settings = false →
        refreshContent languages outcome fresh settings
          = RefreshResult.completed (expectedStates outcome languages)) := by
  refine ⟨?_, ?_, ?_⟩
  · exact refreshLoop_restarted_iff outcome fresh settings languages []
  · exact fun ns states h =>
      refreshLoop_restarted_settings outcome fresh settings languages [] ns states h
  · intro hnr
    have h := refreshLoop_completed outcome fresh settings hnr languages []
    simpa using h

/-- Witness for C5: the remote store returns the same gemini key "k1" that
just failed, so the cycle never restarts: the quota-failing language 0 is
marked not ready and processing continues to language 1. -/
theorem refreshContent_spec_witness :
    restartCondition
        (some { keys := some { gemini := some "k1", openai := none, deepseek := none } })
        { primary := ApiProvider.gemini, backup := some ApiProvider.openai,
          keys := { gemini := some "k1", openai := none, deepseek := none } } = false
      ∧ refreshContent [0, 1]
          (fun l => if l = 0 then PreloadOutcome.fail ("quota exceeded".toList)
                    else PreloadOutcome.ok 1)
          (some { keys := some { gemini := some "k1", openai := none, deepseek := none } })
          { primary := ApiProvider.gemini, backup := some ApiProvider.openai,
            keys := { gemini := some "k1", openai := none, deepseek := none } }
        = RefreshResult.completed [(0, false), (1, true)] := by
  refine ⟨rfl, ?_⟩
  rw [(refreshContent_spec [0, 1]
      (fun l => if l = 0 then PreloadOutcome.fail ("quota exceeded".toList)
                else PreloadOutcome.ok 1)
      (some { keys := some { gemini := some "k1", openai := none, deepseek := none } })
      { primary := ApiProvider.gemini, backup := some ApiProvider.openai,
        keys := { gemini := some "k1", openai := none, deepseek := none } }).2.2 rfl]
  rfl

end LinguistDaily
